import Mathlib

/-!
Verification of the veld media downloader core against its specification.

Shallow embedding of the Go sources:
* internal/engine/worker_pool.go  (worker pool: Wait, downloadSegment)
* internal/engine/checkpoint.go   (Checkpoint: IsSegmentDone, Save, SegmentPath, formatIndex)
* internal/engine/engine.go       (orchestrator: Download submission loop)
* internal/engine/selector.go     (parseBandwidthRange, parseBandwidth)
* internal/parser/hls.go          (parseMedia), internal/parser/dash.go (buildSegmentsFromTemplate)
* internal/decryptor/decryptor.go and helpers.go (decryptSample, incrementIV)
* the HLS AES-128-CBC decryptor (Decrypt, pkcs7Unpad)

Go byte slices are modelled as `List Nat` with explicit `% 256` / `< 256` side
conditions; Go strings as `List Char`; machine integers as `Nat`/`Int` (the
programs in question never rely on wrap-around of int64 counters, which stay
far below 2^63 in every reachable state considered here).
-/

namespace Veld

/-- Go strings are modelled as lists of characters. -/
abbrev Str := List Char

/-- Shorthand turning a Lean string literal into the `List Char` model. -/
def str (s : String) : Str := s.data

/-! ## Worker pool: Wait (internal/engine/worker_pool.go, lines 223-242)

```go
failed := p.failed.Load()
completed := p.completed.Load()
total := failed + completed
if failed > 0 && total > 0 {
    failRate := float64(failed) / float64(total)
    if failRate > 0.01 { return fmt.Errorf(...) }
    ...
}
return nil
```

The float comparison `float64(failed)/float64(total) > 0.01` is modelled by the
exact comparison `100*failed > total`.  (IEEE division is correctly rounded, so
for counts below 2^53 the double `failed/total` is the double nearest to the
exact rational; at the boundary `failed/total = 1/100` that double is the
literal `0.01`, and the strict `>` is false on both sides.) -/

/-- Model of `WorkerPool.Wait`: `some (failed, total)` when Wait returns the
too-many-failures error, `none` when it returns nil. -/
def poolWaitError (completed failed : Nat) : Option (Nat × Nat) :=
  let total := failed + completed
  if failed > 0 ∧ total > 0 then
    if 100 * failed > total then some (failed, total) else none
  else
    none

/-! ## Checkpoint segment-path formatting (internal/engine/checkpoint.go 113-119
and the `fmt.Sprintf("%s_%05d.seg", ...)` in worker_pool.go line 137) -/

/-- The character for a decimal digit `d < 10` (Go `rune('0'+d)`). -/
def digitChar (d : Nat) : Char := Char.ofNat ('0'.toNat + d)

/-- `formatIndex` from checkpoint.go:

```go
func formatIndex(i int) string {
    return string(rune('0'+i/10000%10)) + string(rune('0'+i/1000%10)) +
           string(rune('0'+i/100%10)) + string(rune('0'+i/10%10)) +
           string(rune('0'+i%10))
}
```

Indices reaching this function are the non-negative `Segment.Index` values, so
the Go `int` division/modulo agree with `Nat` division/modulo. -/
def formatIndex (i : Nat) : Str :=
  [digitChar (i / 10000 % 10), digitChar (i / 1000 % 10),
   digitChar (i / 100 % 10), digitChar (i / 10 % 10), digitChar (i % 10)]

/-- Decimal digit characters of `n`, most significant first (the digits
`fmt.Sprintf("%d", n)` prints for a non-negative value). -/
def natDecChars (n : Nat) : Str :=
  if _h : n < 10 then [digitChar n]
  else natDecChars (n / 10) ++ [digitChar (n % 10)]
  decreasing_by exact Nat.div_lt_self (by omega) (by omega)

/-- Model of Go `fmt.Sprintf("%05d", n)` for non-negative `n`: the decimal
digits, left-padded with zeros to width 5. -/
def sprintf05d (n : Nat) : Str :=
  let s := natDecChars n
  List.replicate (5 - s.length) '0' ++ s

/-- `filepath.Join` for a non-empty clean directory and a relative file name. -/
def joinPath (dir name : Str) : Str := dir ++ ['/'] ++ name

/-- `Checkpoint.SegmentPath` (checkpoint.go line 113-115):
`filepath.Join(c.TempDir, trackID+"_"+formatIndex(index)+".seg")`. -/
def segmentPath (tempDir trackID : Str) (index : Nat) : Str :=
  joinPath tempDir (trackID ++ ['_'] ++ formatIndex index ++ str ".seg")

/-- The spool path the worker pool writes (worker_pool.go line 137):
`filepath.Join(p.tempDir, fmt.Sprintf("%s_%05d.seg", task.Track.ID, task.Segment.Index))`. -/
def workerSegPath (tempDir trackID : Str) (index : Nat) : Str :=
  joinPath tempDir (trackID ++ ['_'] ++ sprintf05d index ++ str ".seg")

theorem natDecChars_small {n : Nat} (h : n < 10) : natDecChars n = [digitChar n] := by
  rw [natDecChars]
  simp [h]

theorem natDecChars_step {n : Nat} (h : ¬ n < 10) :
    natDecChars n = natDecChars (n / 10) ++ [digitChar (n % 10)] := by
  rw [natDecChars]
  simp [h]

theorem sprintf05d_eq_formatIndex {i : Nat} (h : i < 100000) :
    sprintf05d i = formatIndex i := by
  rcases Nat.lt_or_ge i 10 with h1 | h1
  · have e4 : i / 10000 % 10 = 0 := by omega
    have e3 : i / 1000 % 10 = 0 := by omega
    have e2 : i / 100 % 10 = 0 := by omega
    have e1 : i / 10 % 10 = 0 := by omega
    have e0 : i % 10 = i := Nat.mod_eq_of_lt h1
    simp [sprintf05d, natDecChars_small h1, formatIndex, e4, e3, e2, e1, e0]
    rfl
  rcases Nat.lt_or_ge i 100 with h2 | h2
  · have e4 : i / 10000 % 10 = 0 := by omega
    have e3 : i / 1000 % 10 = 0 := by omega
    have e2 : i / 100 % 10 = 0 := by omega
    have e1 : i / 10 % 10 = i / 10 := Nat.mod_eq_of_lt (by omega)
    have s1 : natDecChars i = [digitChar (i / 10), digitChar (i % 10)] := by
      rw [natDecChars_step (by omega), natDecChars_small (by omega)]
      rfl
    simp [sprintf05d, s1, formatIndex, e4, e3, e2, e1]
    rfl
  rcases Nat.lt_or_ge i 1000 with h3 | h3
  · have e4 : i / 10000 % 10 = 0 := by omega
    have e3 : i / 1000 % 10 = 0 := by omega
    have e2 : i / 100 % 10 = i / 100 := Nat.mod_eq_of_lt (by omega)
    have d1 : i / 10 / 10 = i / 100 := by omega
    have s1 : natDecChars i =
        [digitChar (i / 100), digitChar (i / 10 % 10), digitChar (i % 10)] := by
      rw [natDecChars_step (by omega), natDecChars_step (by omega), d1,
        natDecChars_small (by omega)]
      rfl
    simp [sprintf05d, s1, formatIndex, e4, e3, e2]
    rfl
  rcases Nat.lt_or_ge i 10000 with h4 | h4
  · have e4 : i / 10000 % 10 = 0 := by omega
    have e3 : i / 1000 % 10 = i / 1000 := Nat.mod_eq_of_lt (by omega)
    have d1 : i / 10 / 10 = i / 100 := by omega
    have d2 : i / 100 / 10 = i / 1000 := by omega
    have s1 : natDecChars i =
        [digitChar (i / 1000), digitChar (i / 100 % 10),
         digitChar (i / 10 % 10), digitChar (i % 10)] := by
      rw [natDecChars_step (by omega), natDecChars_step (by omega), d1,
        natDecChars_step (by omega), d2, natDecChars_small (by omega)]
      rfl
    simp [sprintf05d, s1, formatIndex, e4, e3]
    rfl
  · have e4 : i / 10000 % 10 = i / 10000 := Nat.mod_eq_of_lt (by omega)
    have d1 : i / 10 / 10 = i / 100 := by omega
    have d2 : i / 100 / 10 = i / 1000 := by omega
    have d3 : i / 1000 / 10 = i / 10000 := by omega
    have s1 : natDecChars i =
        [digitChar (i / 10000), digitChar (i / 1000 % 10), digitChar (i / 100 % 10),
         digitChar (i / 10 % 10), digitChar (i % 10)] := by
      rw [natDecChars_step (by omega), natDecChars_step (by omega), d1,
        natDecChars_step (by omega), d2, natDecChars_step (by omega), d3,
        natDecChars_small (by omega)]
      rfl
    simp [sprintf05d, s1, formatIndex, e4]

/-- C10: for every segment index below 100000, the digit-by-digit `formatIndex`
used by `Checkpoint.SegmentPath` produces exactly the 5-character zero-padded
decimal string that the worker pool's `%05d` formatting produces, so the resume
lookup path equals the spool write path. -/
theorem formatIndex_agrees_with_percent05d (tempDir trackID : Str) (i : Nat)
    (h : i < 100000) :
    formatIndex i = sprintf05d i ∧
      segmentPath tempDir trackID i = workerSegPath tempDir trackID i := by
  refine ⟨(sprintf05d_eq_formatIndex h).symm, ?_⟩
  unfold segmentPath workerSegPath
  rw [sprintf05d_eq_formatIndex h]

/-- Witness for C10 at index 42. -/
theorem formatIndex_agrees_with_percent05d_witness :
    42 < 100000 ∧
      (formatIndex 42 = sprintf05d 42 ∧
        segmentPath (str "/tmp") (str "v1") 42 = workerSegPath (str "/tmp") (str "v1") 42) :=
  ⟨by norm_num, formatIndex_agrees_with_percent05d (str "/tmp") (str "v1") 42 (by norm_num)⟩

/-- C1: with `completed + failed > 0`, `Wait` returns the too-many-failures
error exactly when the failure ratio `failed / (completed + failed)` exceeds
1/100; at or below the threshold (including zero failures) it returns success. -/
theorem wait_error_iff_failure_ratio (completed failed : Nat)
    (h : 0 < completed + failed) :
    (poolWaitError completed failed).isSome ↔
      (failed : ℚ) / ((completed : ℚ) + (failed : ℚ)) > 1 / 100 := by
  have ht : (0 : ℚ) < (completed : ℚ) + (failed : ℚ) := by
    have : (0 : ℚ) < ((completed + failed : Nat) : ℚ) := by exact_mod_cast h
    push_cast at this
    linarith
  have key : ((1 : ℚ) / 100 < (failed : ℚ) / ((completed : ℚ) + (failed : ℚ))) ↔
      (failed + completed < 100 * failed) := by
    rw [div_lt_div_iff₀ (by norm_num) ht, one_mul]
    constructor
    · intro hx
      have hx2 : ((failed + completed : Nat) : ℚ) < ((100 * failed : Nat) : ℚ) := by
        push_cast
        linarith
      exact_mod_cast hx2
    · intro hx
      have hx2 : ((failed + completed : Nat) : ℚ) < ((100 * failed : Nat) : ℚ) := by
        exact_mod_cast hx
      push_cast at hx2
      linarith
  rw [gt_iff_lt, key]
  unfold poolWaitError
  rcases Nat.eq_zero_or_pos failed with hf | hf
  · subst hf
    simp
  · have hcond : failed > 0 ∧ failed + completed > 0 := ⟨hf, by omega⟩
    simp only [hcond, and_self, if_true, hf, Nat.lt_irrefl]
    by_cases hr : failed + completed < 100 * failed
    · simp [gt_iff_lt, hr]
    · simp [gt_iff_lt, hr]

/-- Witness for C1: 15 failures out of 1000 (ratio 1.5%) make Wait fail. -/
theorem wait_error_iff_failure_ratio_witness :
    0 < 985 + 15 ∧
      ((poolWaitError 985 15).isSome ↔
        (15 : ℚ) / ((985 : ℚ) + (15 : ℚ)) > 1 / 100) :=
  ⟨by norm_num, wait_error_iff_failure_ratio 985 15 (by norm_num)⟩

/-! ## String helpers shared by the selector and parser embeddings -/

/-- ASCII whitespace; model of the whitespace class used by
`strings.TrimSpace` on the ASCII inputs that occur in selectors and
playlists. -/
def isSpaceChar (c : Char) : Bool := c = ' ' ∨ c = '\t' ∨ c = '\n' ∨ c = '\r'

/-- `strings.TrimSpace`. -/
def trimSpaceL (s : Str) : Str :=
  ((s.dropWhile isSpaceChar).reverse.dropWhile isSpaceChar).reverse

/-- ASCII lowercasing of one character (model of `strings.ToLower` per
character; the selector inputs are ASCII). -/
def toLowerChar (c : Char) : Char :=
  if 'A' ≤ c ∧ c ≤ 'Z' then Char.ofNat (c.toNat + 32) else c

/-- `strings.ToLower`. -/
def toLowerL (s : Str) : Str := s.map toLowerChar

/-- `strings.HasPrefix s p`. -/
def startsWithL (s p : Str) : Bool := p.isPrefixOf s

def isDigitChar (c : Char) : Bool := '0' ≤ c ∧ c ≤ '9'

def digitVal (c : Char) : Nat := c.toNat - '0'.toNat

/-- Value of a nonempty all-digit string. -/
def decimalVal (s : Str) : Nat := s.foldl (fun acc c => acc * 10 + digitVal c) 0

/-- Go `strconv.ParseInt(s, 10, 64)` with the error discarded by the caller
(`val, _ := strconv.ParseInt(...)`): the decimal value when `s` is an optional
sign followed by at least one digit, and 0 otherwise (ParseInt returns 0
together with a syntax error).  Int64 range clamping is not modelled; every
input considered here stays far below 2^63. -/
def parseIntGo (s : Str) : Int :=
  match s with
  | '+' :: rest => if rest ≠ [] ∧ rest.all isDigitChar then (decimalVal rest : Int) else 0
  | '-' :: rest => if rest ≠ [] ∧ rest.all isDigitChar then -(decimalVal rest : Int) else 0
  | _ => if s ≠ [] ∧ s.all isDigitChar then (decimalVal s : Int) else 0

/-- `strings.SplitN(s, sep, 2)` for a one-character separator known to occur:
the part before the first occurrence and the remainder after it. -/
def splitFirst (s : Str) (sep : Char) : Str × Str :=
  (s.takeWhile (· ≠ sep), (s.dropWhile (· ≠ sep)).drop 1)

/-! ## Selector bandwidth parsing (internal/engine/selector.go, lines 248-303) -/

/-- `parseBandwidth` from selector.go: lowercase and trim, strip an optional
`k`/`m`/`g` suffix fixing the multiplier, parse the rest as an integer
(errors ignored), multiply. -/
def parseBandwidth (s0 : Str) : Int :=
  let s := toLowerL (trimSpaceL s0)
  if s = [] then 0
  else
    let p :=
      if s.getLast? = some 'k' then ((1000 : Int), s.dropLast)
      else if s.getLast? = some 'm' then (1000000, s.dropLast)
      else if s.getLast? = some 'g' then (1000000000, s.dropLast)
      else (1, s)
    parseIntGo p.2 * p.1

/-- `parseBandwidthRange` from selector.go, with the branches in source order:
the `">"` and `"<"` prefix tests come before the `">="` and `"<="` tests. -/
def parseBandwidthRange (s0 : Str) : Int × Int :=
  let s := trimSpaceL s0
  if startsWithL s (str ">") then (parseBandwidth (s.drop 1), 0)
  else if startsWithL s (str "<") then (0, parseBandwidth (s.drop 1))
  else if startsWithL s (str ">=") then (parseBandwidth (s.drop 2), 0)
  else if startsWithL s (str "<=") then (0, parseBandwidth (s.drop 2))
  else if s.contains '-' then
    let p := splitFirst s '-'
    (parseBandwidth p.1, parseBandwidth p.2)
  else
    let bw := parseBandwidth s
    (bw, bw)

/-- C8: the `">="` and `"<="` branches of `parseBandwidthRange` are dead code:
the `">"` (resp. `"<"`) prefix test matches first, so `">=500k"` is parsed as
`">"` followed by `"=500k"`, whose integer part fails to parse and yields 0 —
no minimum bound is recorded (0 means unbounded), contrary to the claim that
`">=500k"` yields a minimum bound of 500000.  The third conjunct shows the
plain `">"` form for contrast. -/
theorem bandwidthRange_ge_le_dead_branches :
    parseBandwidthRange (str ">=500k") = (0, 0) ∧
      parseBandwidthRange (str "<=500k") = (0, 0) ∧
      parseBandwidthRange (str ">500k") = (500000, 0) ∧
      (0, 0) ≠ ((500000 : Int), (0 : Int)) := by
  refine ⟨by decide, by decide, by decide, by decide⟩

/-! ## Manifest parsing (internal/parser/hls.go, internal/parser/dash.go)

URL resolution (`resolveURL` / `url.ResolveReference`) and DASH template
expansion (`expandTemplate`) only produce the URL strings stored on segments;
no claim inspects those strings, so both are abstracted as function
parameters (`resolve`, `expand`) and every theorem below is universally
quantified over them.  Likewise `parseHLSAttributes` (a Go regex) is
abstracted as an `attrs` parameter returning an association list. -/

/-- `strings.Split` for a one-character separator. -/
def splitOnChar (sep : Char) : Str → List Str
  | [] => [[]]
  | c :: rest =>
      if c = sep then [] :: splitOnChar sep rest
      else
        match splitOnChar sep rest with
        | [] => [[c]]
        | h :: t => (c :: h) :: t

/-- `strings.Trim s (String.singleton c)`: remove leading and trailing
occurrences of `c`. -/
def trimCharL (s : Str) (c : Char) : Str :=
  ((s.dropWhile (· = c)).reverse.dropWhile (· = c)).reverse

/-- `strings.TrimPrefix`. -/
def trimPrefixL (s p : Str) : Str := if startsWithL s p then s.drop p.length else s

def hexDigitVal (c : Char) : Option Nat :=
  if '0' ≤ c ∧ c ≤ '9' then some (c.toNat - '0'.toNat)
  else if 'a' ≤ c ∧ c ≤ 'f' then some (c.toNat - 'a'.toNat + 10)
  else if 'A' ≤ c ∧ c ≤ 'F' then some (c.toNat - 'A'.toNat + 10)
  else none

/-- One hex byte, `strconv.ParseUint(s[i:i+2], 16, 8)` with the error ignored
(0 on a syntax error, as ParseUint returns). -/
def hexPairVal (c1 c2 : Char) : Nat :=
  match hexDigitVal c1, hexDigitVal c2 with
  | some a, some b => 16 * a + b
  | _, _ => 0

def hexPairs : Str → List Nat
  | c1 :: c2 :: rest => hexPairVal c1 c2 :: hexPairs rest
  | _ => []

/-- `parseHexBytes` from the parser package: strip `0x`/`0X`, then decode
consecutive hex pairs (the Go loop runs while at least two characters
remain). -/
def parseHexBytes (s : Str) : List Nat :=
  hexPairs (trimPrefixL (trimPrefixL s (str "0x")) (str "0X"))

/-- `models.ByteRange`; the Go field `End` is a Lean keyword and is named
`stop` here. -/
structure ByteRangeM where
  start : Int
  stop : Int
  deriving DecidableEq, Repr

/-- `parseByteRange` from the parser package: `"length@offset"` maps to
`{offset, offset+length-1}`, `"start-end"` maps to `{start, end}`, anything
else (a `-` count other than one) to nil. -/
def parseByteRange (s0 : Str) : Option ByteRangeM :=
  let s := trimCharL s0 '"'
  if s.contains '@' then
    let parts := splitOnChar '@' s
    let len := parseIntGo (parts.headD [])
    let first := if parts.length > 1 then parseIntGo (parts.getD 1 []) else 0
    some ⟨first, first + len - 1⟩
  else
    let parts := splitOnChar '-' s
    if parts.length = 2 then
      some ⟨parseIntGo (parts.getD 0 []), parseIntGo (parts.getD 1 [])⟩
    else none

/-- A parsed media segment (`models.Segment` as populated by the parsers).
The declared duration is kept as the raw `#EXTINF` text: its float value is
never inspected by any claim, only which segments exist and their indices and
byte ranges. -/
structure PSegment where
  index : Int
  url : Str
  durationText : Str := []
  byteRange : Option ByteRangeM := none
  deriving DecidableEq, Repr

/-- Track-level fields set by the HLS media-playlist parser. -/
structure HLSTrack where
  encrypted : Bool := false
  encryptionURI : Str := []
  encryptionIV : List Nat := []
  initSegment : Option PSegment := none
  deriving DecidableEq, Repr

/-- Loop state of `HLSParser.parseMedia` (hls.go, lines 99-161). -/
structure MediaState where
  track : HLSTrack
  segments : List PSegment
  durText : Str
  segIndex : Int
  deriving Repr

/-- Attribute-map lookup (`attrs["URI"]`, etc.). -/
def lookupAttr (a : List (Str × Str)) (k : Str) : Option Str :=
  (a.find? (fun e => e.1 = k)).map (·.2)

/-- One iteration of the `parseMedia` line loop, with the source's switch
cases in order: `#EXTINF:`, `#EXT-X-KEY:`, `#EXT-X-MAP:`, then any non-empty
line not starting with `#` becomes the next media segment.  Lines matching
none of the cases — `#EXT-X-BYTERANGE` among them — fall through with no
effect. -/
def parseMediaLine (resolve : Str → Str) (attrs : Str → List (Str × Str))
    (st : MediaState) (line0 : Str) : MediaState :=
  let line := trimSpaceL line0
  if startsWithL line (str "#EXTINF:") then
    { st with durText := (splitOnChar ',' (line.drop 8)).headD [] }
  else if startsWithL line (str "#EXT-X-KEY:") then
    let a := attrs (line.drop 11)
    let tr1 :=
      match lookupAttr a (str "URI") with
      | some uri =>
          { st.track with encrypted := true, encryptionURI := resolve (trimCharL uri '"') }
      | none => st.track
    let tr2 :=
      match lookupAttr a (str "IV") with
      | some iv => { tr1 with encryptionIV := parseHexBytes iv }
      | none => tr1
    { st with track := tr2 }
  else if startsWithL line (str "#EXT-X-MAP:") then
    let a := attrs (line.drop 11)
    match lookupAttr a (str "URI") with
    | some uri =>
        let init0 : PSegment := { index := -1, url := resolve (trimCharL uri '"') }
        let init1 :=
          match lookupAttr a (str "BYTERANGE") with
          | some br => { init0 with byteRange := parseByteRange br }
          | none => init0
        { st with track := { st.track with initSegment := some init1 } }
    | none => st
  else if ¬ startsWithL line (str "#") ∧ line ≠ [] then
    let seg : PSegment := { index := st.segIndex, url := resolve line, durationText := st.durText }
    { st with segments := st.segments ++ [seg], segIndex := st.segIndex + 1 }
  else st

/-- `HLSParser.parseMedia` over the playlist's (already line-split) content:
returns the track metadata and the media segments in order. -/
def parseMedia (resolve : Str → Str) (attrs : Str → List (Str × Str))
    (lines : List Str) : HLSTrack × List PSegment :=
  let st := lines.foldl (parseMediaLine resolve attrs) ⟨{}, [], [], 0⟩
  (st.track, st.segments)

/-- Contiguous run of `n` integers starting at `s`. -/
def intRange (s : Int) : Nat → List Int
  | 0 => []
  | n + 1 => s :: intRange (s + 1) n

theorem intRange_append (a : Nat) :
    ∀ (s : Int) (b : Nat), intRange s a ++ intRange (s + a) b = intRange s (a + b) := by
  induction a with
  | zero => intro s b; simp [intRange]
  | succ n ih =>
      intro s b
      have h1 : s + (↑n + 1) = (s + 1) + ↑n := by ring
      simp only [intRange, List.cons_append, Nat.succ_add]
      rw [show (s + ↑(n + 1) : Int) = (s + 1) + ↑n by push_cast; ring, ih (s + 1) b]

theorem intRange_eq_map_range (n : Nat) :
    ∀ s : Int, intRange s n = (List.range n).map (fun k : Nat => s + (k : Int)) := by
  induction n with
  | zero => intro s; rfl
  | succ m ih =>
      intro s
      simp only [intRange]
      rw [ih (s + 1), List.range_succ_eq_map, List.map_cons, List.map_map]
      refine List.cons_eq_cons.mpr ⟨by simp, List.map_congr_left fun k _ => ?_⟩
      simp only [Function.comp_apply]
      push_cast
      ring

theorem intRange_length (n : Nat) : ∀ s : Int, (intRange s n).length = n := by
  induction n with
  | zero => intro s; rfl
  | succ m ih => intro s; simp [intRange, ih]

/-! ## DASH segment construction (internal/parser/dash.go, lines 202-292) -/

/-- A SegmentTimeline `S` entry (`t`=start time, `d`=duration, `r`=repeat). -/
structure SegmentTime where
  t : Int
  d : Int
  r : Int
  deriving DecidableEq, Repr

/-- `SegmentTemplate` as decoded from the MPD (absent XML attributes decode to
the zero value, mirrored by the defaults). -/
structure SegmentTemplateM where
  media : Str := []
  initialization : Str := []
  timescale : Int := 0
  duration : Int := 0
  startNumber : Int := 0
  timeline : Option (List SegmentTime) := none
  deriving DecidableEq, Repr

/-- A DASH-built `models.Segment`.  `durNanos` models the Go
`time.Duration(d) * time.Second / time.Duration(timescale)` (int64 nanoseconds;
for the non-negative durations and positive timescales of real manifests every
integer-division convention coincides, and no claim inspects the value). -/
structure DSegment where
  index : Int
  url : Str
  durNanos : Int := 0
  byteRange : Option ByteRangeM := none
  deriving DecidableEq, Repr

/-- The inner `for i := 0; i < repeatCount; i++` loop of the timeline walk:
each iteration emits a segment with `Index: segNum-1` and then increments
`segNum` and advances `currentTime` by `d`. -/
def emitRepeat (expand : Str → Int → Int → Str) (media : Str) (d ts : Int) :
    Nat → Int → Int → List DSegment
  | 0, _, _ => []
  | n + 1, segNum, ct =>
      { index := segNum - 1, url := expand media segNum ct,
        durNanos := d * 1000000000 / ts } ::
        emitRepeat expand media d ts n (segNum + 1) (ct + d)

/-- The walk over the SegmentTimeline entries `(t, d, r)`. -/
def timelineSegs (expand : Str → Int → Int → Str) (media : Str) (ts : Int) :
    List SegmentTime → Int → Int → List DSegment
  | [], _, _ => []
  | s :: rest, segNum, currentTime =>
      let ct := if s.t > 0 then s.t else currentTime
      let rc : Nat := if s.r < 0 then 1 else (s.r + 1).toNat
      emitRepeat expand media s.d ts rc segNum ct ++
        timelineSegs expand media ts rest (segNum + (rc : Int)) (ct + (rc : Int) * s.d)

/-- The fixed-duration fallback: a hard-coded 100 segments with `Index: i`. -/
def fixedDurationSegs (expand : Str → Int → Int → Str) (tmpl : SegmentTemplateM)
    (ts : Int) : List DSegment :=
  (List.range 100).map fun i =>
    { index := (i : Int), url := expand tmpl.media (tmpl.startNumber + (i : Int)) 0,
      durNanos := tmpl.duration * 1000000000 / ts }

/-- `buildSegmentsFromTemplate` (dash.go, lines 202-263).  `expand` stands for
`resolveURL(base, expandTemplate(template, rep.ID, number, time))`. -/
def buildSegmentsFromTemplate (expand : Str → Int → Int → Str)
    (tmpl : SegmentTemplateM) : List DSegment × Option DSegment :=
  let initSeg : Option DSegment :=
    if tmpl.initialization ≠ [] then some { index := -1, url := expand tmpl.initialization 0 0 }
    else none
  let ts := if tmpl.timescale = 0 then 1 else tmpl.timescale
  let fixed : List DSegment :=
    if tmpl.duration > 0 then fixedDurationSegs expand tmpl ts else []
  match tmpl.timeline with
  | some entries =>
      if entries = [] then (fixed, initSeg)
      else
        let segNum := if tmpl.startNumber = 0 then 1 else tmpl.startNumber
        (timelineSegs expand tmpl.media ts entries segNum 0, initSeg)
  | none => (fixed, initSeg)

/-- A `SegmentURL` / `Initialization` entry of a SegmentList. -/
structure URLTypeM where
  sourceURL : Str := []
  media : Str := []
  range : Str := []
  deriving DecidableEq, Repr

structure SegmentListM where
  initialization : Option URLTypeM := none
  segments : List URLTypeM := []
  deriving DecidableEq, Repr

/-- The `for i, seg := range list.Segments` loop of
`buildSegmentsFromList`. -/
def listSegsAux (resolve : Str → Str) : List URLTypeM → Nat → List DSegment
  | [], _ => []
  | u :: rest, i =>
      { index := (i : Int), url := resolve u.media,
        byteRange := if u.range ≠ [] then parseByteRange u.range else none } ::
        listSegsAux resolve rest (i + 1)

/-- `buildSegmentsFromList` (dash.go, lines 266-292). -/
def buildSegmentsFromList (resolve : Str → Str) (list : SegmentListM) :
    List DSegment × Option DSegment :=
  let initSeg : Option DSegment :=
    match list.initialization with
    | some ini =>
        if ini.sourceURL ≠ [] then
          some { index := -1, url := resolve ini.sourceURL,
                 byteRange := if ini.range ≠ [] then parseByteRange ini.range else none }
        else none
    | none => none
  (listSegsAux resolve list.segments 0, initSeg)

/-- Whether the template takes the SegmentTimeline branch
(`tmpl.Timeline != nil && len(tmpl.Timeline.S) > 0`). -/
def timelineActive (tmpl : SegmentTemplateM) : Bool :=
  match tmpl.timeline with
  | some entries => entries ≠ []
  | none => false

/-- First media-segment index each template path produces: the timeline path
starts at the effective start number minus one, every other path at 0. -/
def tmplStartIndex (tmpl : SegmentTemplateM) : Int :=
  if timelineActive tmpl then (if tmpl.startNumber = 0 then 1 else tmpl.startNumber) - 1
  else 0

theorem emitRepeat_indices (expand : Str → Int → Int → Str) (media : Str) (d ts : Int) :
    ∀ (n : Nat) (segNum ct : Int),
      (emitRepeat expand media d ts n segNum ct).map DSegment.index =
        intRange (segNum - 1) n := by
  intro n
  induction n with
  | zero => intro segNum ct; rfl
  | succ m ih =>
      intro segNum ct
      simp only [emitRepeat, List.map_cons, intRange, ih]
      rw [show segNum + 1 - 1 = segNum - 1 + 1 by ring]

theorem emitRepeat_length (expand : Str → Int → Int → Str) (media : Str) (d ts : Int)
    (n : Nat) (segNum ct : Int) :
    (emitRepeat expand media d ts n segNum ct).length = n := by
  have h := congrArg List.length (emitRepeat_indices expand media d ts n segNum ct)
  simpa [intRange_length] using h

theorem timelineSegs_indices (expand : Str → Int → Int → Str) (media : Str) (ts : Int) :
    ∀ (entries : List SegmentTime) (segNum ct : Int),
      (timelineSegs expand media ts entries segNum ct).map DSegment.index =
        intRange (segNum - 1) (timelineSegs expand media ts entries segNum ct).length := by
  intro entries
  induction entries with
  | nil => intro segNum ct; rfl
  | cons s rest ih =>
      intro segNum ct
      simp only [timelineSegs, List.map_append, List.length_append]
      rw [emitRepeat_indices, emitRepeat_length, ih]
      rw [show segNum + ((if s.r < 0 then 1 else (s.r + 1).toNat : Nat) : Int) - 1
            = (segNum - 1) + ((if s.r < 0 then 1 else (s.r + 1).toNat : Nat) : Int) by ring]
      rw [show ((if s.r < 0 then 1 else (s.r + 1).toNat : Nat) : Int)
            = (((if s.r < 0 then 1 else (s.r + 1).toNat : Nat) : Nat) : Int) by norm_num]
      rw [intRange_append]

theorem intRange_snoc (s : Int) (n : Nat) :
    intRange s n ++ [s + (n : Int)] = intRange s (n + 1) := by
  simpa [intRange] using intRange_append n s 1

theorem fixedDurationSegs_indices (expand : Str → Int → Int → Str)
    (tmpl : SegmentTemplateM) (ts : Int) :
    (fixedDurationSegs expand tmpl ts).map DSegment.index =
      intRange 0 (fixedDurationSegs expand tmpl ts).length := by
  simp only [fixedDurationSegs, List.map_map, List.length_map, List.length_range]
  rw [intRange_eq_map_range]
  refine List.map_congr_left fun k _ => ?_
  simp [Function.comp]

theorem listSegsAux_indices (resolve : Str → Str) :
    ∀ (l : List URLTypeM) (i : Nat),
      (listSegsAux resolve l i).map DSegment.index =
        intRange (i : Int) (listSegsAux resolve l i).length := by
  intro l
  induction l with
  | nil => intro i; rfl
  | cons u rest ih =>
      intro i
      simp only [listSegsAux, List.map_cons, List.length_cons, intRange, ih]
      rw [show ((i : Int) + 1) = ((i + 1 : Nat) : Int) by push_cast; ring]

theorem parseMediaLine_cases (resolve : Str → Str) (attrs : Str → List (Str × Str))
    (st : MediaState) (line : Str) :
    ((parseMediaLine resolve attrs st line).segments = st.segments ∧
      (parseMediaLine resolve attrs st line).segIndex = st.segIndex) ∨
    (∃ u d, (parseMediaLine resolve attrs st line).segments
          = st.segments ++ [{ index := st.segIndex, url := u, durationText := d }] ∧
        (parseMediaLine resolve attrs st line).segIndex = st.segIndex + 1) := by
  simp only [parseMediaLine]
  repeat' split
  all_goals first
    | exact Or.inl ⟨rfl, rfl⟩
    | exact Or.inr ⟨_, _, rfl, rfl⟩

theorem parseMedia_loop_invariant (resolve : Str → Str)
    (attrs : Str → List (Str × Str)) :
    ∀ (lines : List Str) (st : MediaState),
      st.segIndex = (st.segments.length : Int) →
      st.segments.map PSegment.index = intRange 0 st.segments.length →
      (∀ s ∈ st.segments, s.byteRange = none) →
      ((lines.foldl (parseMediaLine resolve attrs) st).segIndex
          = ((lines.foldl (parseMediaLine resolve attrs) st).segments.length : Int) ∧
        (lines.foldl (parseMediaLine resolve attrs) st).segments.map PSegment.index
          = intRange 0 (lines.foldl (parseMediaLine resolve attrs) st).segments.length ∧
        (∀ s ∈ (lines.foldl (parseMediaLine resolve attrs) st).segments,
          s.byteRange = none)) := by
  intro lines
  induction lines with
  | nil => intro st h1 h2 h3; exact ⟨h1, h2, h3⟩
  | cons l rest ih =>
      intro st h1 h2 h3
      simp only [List.foldl_cons]
      rcases parseMediaLine_cases resolve attrs st l with ⟨hs, hi⟩ | ⟨u, d, hs, hi⟩
      · exact ih _ (by rw [hs, hi]; exact h1) (by rw [hs]; exact h2) (by rw [hs]; exact h3)
      · refine ih _ ?_ ?_ ?_
        · rw [hs, hi, h1]
          simp
        · rw [hs, List.map_append, h2, List.length_append]
          simp only [List.map_cons, List.map_nil, h1, List.length_cons, List.length_nil]
          simpa using intRange_snoc 0 st.segments.length
        · rw [hs]
          intro s hmem
          rcases List.mem_append.mp hmem with hm | hm
          · exact h3 s hm
          · simp only [List.mem_singleton] at hm
            subst hm
            rfl

/-- C3 (amended): both parsers yield strictly increasing, contiguous segment
indices.  The line-based media-playlist parser, the XML SegmentList path and
the XML fixed-duration template path start at index 0; the XML
SegmentTimeline path starts at `effectiveStartNumber - 1` (0 when the
startNumber attribute is absent or 1, but not for other start numbers —
contrary to the original claim that every path starts at 0). -/
theorem parser_indices_contiguous :
    (∀ (resolve : Str → Str) (attrs : Str → List (Str × Str)) (lines : List Str),
      (parseMedia resolve attrs lines).2.map PSegment.index
        = intRange 0 (parseMedia resolve attrs lines).2.length)
    ∧ (∀ (expand : Str → Int → Int → Str) (tmpl : SegmentTemplateM),
      (buildSegmentsFromTemplate expand tmpl).1.map DSegment.index
        = intRange (tmplStartIndex tmpl) (buildSegmentsFromTemplate expand tmpl).1.length)
    ∧ (∀ (resolve : Str → Str) (list : SegmentListM),
      (buildSegmentsFromList resolve list).1.map DSegment.index
        = intRange 0 (buildSegmentsFromList resolve list).1.length) := by
  refine ⟨?_, ?_, ?_⟩
  · intro resolve attrs lines
    exact (parseMedia_loop_invariant resolve attrs lines ⟨{}, [], [], 0⟩ (by rfl) (by rfl)
      (by intro s hs; cases hs)).2.1
  · intro expand tmpl
    obtain ⟨media, ini, tsc, dur, startN, tl⟩ := tmpl
    cases tl with
    | none =>
        by_cases hd : dur > 0 <;>
          simp [buildSegmentsFromTemplate, tmplStartIndex, timelineActive, hd,
            fixedDurationSegs_indices, intRange]
    | some entries =>
        by_cases he : entries = []
        · subst he
          by_cases hd : dur > 0 <;>
            simp [buildSegmentsFromTemplate, tmplStartIndex, timelineActive, hd,
              fixedDurationSegs_indices, intRange]
        · simp only [buildSegmentsFromTemplate, tmplStartIndex, timelineActive, he,
            ne_eq, not_false_eq_true, if_neg he]
          simp only [decide_not, if_true, decide_eq_true_eq]
          exact timelineSegs_indices expand media _ entries _ 0
  · intro resolve list
    simpa using listSegsAux_indices resolve list.segments 0

/-- C3 counterexample: with a SegmentTimeline and `startNumber="3"`, the single
emitted segment has index 2, not 0, refuting the claim that template tracks
start at index 0 for any startNumber. -/
theorem timeline_startNumber_cx :
    ((buildSegmentsFromTemplate (fun _ _ _ => str "u")
        { media := str "m", startNumber := 3,
          timeline := some [⟨0, 10, 0⟩], timescale := 1 }).1.map DSegment.index = [2])
    ∧ ¬ ((buildSegmentsFromTemplate (fun _ _ _ => str "u")
        { media := str "m", startNumber := 3,
          timeline := some [⟨0, 10, 0⟩], timescale := 1 }).1.map DSegment.index
        = intRange 0 1) := by
  exact ⟨by decide, by decide⟩

/-- C9 (amended): the line-based media-playlist parser has no case for
`#EXT-X-BYTERANGE` — the tag is skipped like any unrecognized comment line —
so every produced media segment carries no byte range (only the init segment,
via the BYTERANGE attribute of `#EXT-X-MAP`, can carry one). -/
theorem media_segments_carry_no_byteRange (resolve : Str → Str)
    (attrs : Str → List (Str × Str)) (lines : List Str) :
    ∀ s ∈ (parseMedia resolve attrs lines).2, s.byteRange = none :=
  (parseMedia_loop_invariant resolve attrs lines ⟨{}, [], [], 0⟩ (by rfl) (by rfl)
    (by intro s hs; cases hs)).2.2

/-- Witness for C9 (amended) at a one-URI playlist. -/
theorem media_segments_carry_no_byteRange_witness :
    ({ index := 0, url := str "seg1.ts", durationText := [] } : PSegment)
        ∈ (parseMedia id (fun _ => []) [str "seg1.ts"]).2 ∧
      ({ index := 0, url := str "seg1.ts", durationText := [] } : PSegment).byteRange
        = none :=
  ⟨by decide,
    media_segments_carry_no_byteRange id (fun _ => []) [str "seg1.ts"]
      { index := 0, url := str "seg1.ts", durationText := [] } (by decide)⟩

/-- C9 counterexample: a playlist whose `#EXT-X-BYTERANGE:100@200` line
precedes the URI produces a segment with no byte range, not the parsed range
`{start 200, end 299}`. -/
theorem byterange_tag_ignored_cx :
    ((parseMedia id (fun _ => [])
        [str "#EXTINF:4,", str "#EXT-X-BYTERANGE:100@200", str "seg1.ts"]).2.map
          PSegment.byteRange = [none])
    ∧ parseByteRange (str "100@200") = some ⟨200, 299⟩
    ∧ ¬ ((parseMedia id (fun _ => [])
        [str "#EXTINF:4,", str "#EXT-X-BYTERANGE:100@200", str "seg1.ts"]).2.map
          PSegment.byteRange = [some ⟨200, 299⟩]) := by
  exact ⟨by decide, by decide, by decide⟩

/-! ## Orchestrator resume (engine.go, lines 190-217; checkpoint.go, lines 78-92) -/

/-- The `CompletedSegs` map of a checkpoint (`map[string][]int`; Go map keys
are unique, which theorems state as a `Nodup` hypothesis on the keys). -/
abbrev CompletedMap := List (Str × List Int)

/-- `Checkpoint.IsSegmentDone`: look the track up in the map (absent key means
false), then linearly scan the recorded index list. -/
def isSegmentDone (cp : CompletedMap) (trackID : Str) (index : Int) : Bool :=
  match cp.find? (fun e => e.1 = trackID) with
  | none => false
  | some e => e.2.contains index

/-- A selected track as the submission loop of `Engine.Download` sees it: its
ID and the indices of its media segments, in order. -/
structure TrackSegs where
  id : Str
  segIdxs : List Int

/-- The submission loop of `Engine.Download`: for every selected track and
every media segment in order, skip the segment when
`checkpoint.IsSegmentDone(track.ID, segment.Index)` holds, otherwise submit a
task for it. -/
def submittedTasks (cp : CompletedMap) (tracks : List TrackSegs) : List (Str × Int) :=
  tracks.foldr
    (fun t acc =>
      (t.segIdxs.filter (fun i => ! isSegmentDone cp t.id i)).map (fun i => (t.id, i)) ++ acc)
    []

/-- All (trackID, index) pairs of the selected tracks in loop order; its
length is the loop's `totalSegments`. -/
def allSegPairs (tracks : List TrackSegs) : List (Str × Int) :=
  tracks.foldr (fun t acc => t.segIdxs.map (fun i => (t.id, i)) ++ acc) []

/-- The (trackID, index) pairs a checkpoint marks done. -/
def cpPairs (cp : CompletedMap) : List (Str × Int) :=
  cp.foldr (fun e acc => e.2.map (fun i => (e.1, i)) ++ acc) []

theorem cpPairs_fst_mem {cp : CompletedMap} {p : Str × Int} (h : p ∈ cpPairs cp) :
    p.1 ∈ cp.map Prod.fst := by
  induction cp with
  | nil => cases h
  | cons e rest ih =>
      simp only [cpPairs, List.foldr_cons, List.mem_append] at h
      rcases h with h | h
      · rcases List.mem_map.mp h with ⟨i, _, rfl⟩
        exact List.mem_cons_self _ _
      · exact List.mem_cons_of_mem _ (ih h)

theorem isSegmentDone_cons_pos {e : Str × List Int} {rest : CompletedMap} {t : Str}
    (i : Int) (h : e.1 = t) :
    isSegmentDone (e :: rest) t i = e.2.contains i := by
  unfold isSegmentDone
  rw [List.find?_cons_of_pos _ (by simp [h])]

theorem isSegmentDone_cons_neg {e : Str × List Int} {rest : CompletedMap} {t : Str}
    (i : Int) (h : ¬ e.1 = t) :
    isSegmentDone (e :: rest) t i = isSegmentDone rest t i := by
  unfold isSegmentDone
  rw [List.find?_cons_of_neg _ (by simp [h])]

theorem mem_cpPairs_cons {e : Str × List Int} {rest : CompletedMap} {t : Str} {i : Int} :
    (t, i) ∈ cpPairs (e :: rest) ↔ (e.1 = t ∧ i ∈ e.2) ∨ (t, i) ∈ cpPairs rest := by
  simp only [cpPairs, List.foldr_cons, List.mem_append, List.mem_map, Prod.mk.injEq]
  constructor
  · rintro (⟨j, hj, he, hi⟩ | h)
    · exact Or.inl ⟨he, hi ▸ hj⟩
    · exact Or.inr h
  · rintro (⟨he, hi⟩ | h)
    · exact Or.inl ⟨i, hi, he, rfl⟩
    · exact Or.inr h

theorem isSegmentDone_iff_mem_cpPairs {cp : CompletedMap}
    (hkeys : (cp.map Prod.fst).Nodup) (t : Str) (i : Int) :
    isSegmentDone cp t i = true ↔ (t, i) ∈ cpPairs cp := by
  induction cp with
  | nil => simp [isSegmentDone, cpPairs]
  | cons e rest ih =>
      have hkeys2 : (e.1 :: rest.map Prod.fst).Nodup := by simpa using hkeys
      have hk : e.1 ∉ rest.map Prod.fst := (List.nodup_cons.mp hkeys2).1
      have hrest := ih (List.nodup_cons.mp hkeys2).2
      by_cases he : e.1 = t
      · rw [isSegmentDone_cons_pos i he, mem_cpPairs_cons]
        constructor
        · intro hc
          exact Or.inl ⟨he, by simpa using hc⟩
        · rintro (⟨_, hi⟩ | h)
          · simpa using hi
          · exact absurd (he ▸ cpPairs_fst_mem h) hk
      · rw [isSegmentDone_cons_neg i he, mem_cpPairs_cons, hrest]
        constructor
        · exact Or.inr
        · rintro (⟨he2, _⟩ | h)
          · exact absurd he2 he
          · exact h

theorem submittedTasks_eq_filter (cp : CompletedMap) (tracks : List TrackSegs) :
    submittedTasks cp tracks
      = (allSegPairs tracks).filter (fun p => ! isSegmentDone cp p.1 p.2) := by
  induction tracks with
  | nil => rfl
  | cons t rest ih =>
      show (t.segIdxs.filter fun i => ! isSegmentDone cp t.id i).map (fun i => (t.id, i))
            ++ submittedTasks cp rest
          = ((t.segIdxs.map fun i => (t.id, i)) ++ allSegPairs rest).filter
              (fun p => ! isSegmentDone cp p.1 p.2)
      rw [List.filter_append, ih]
      refine congrArg₂ _ ?_ rfl
      generalize t.segIdxs = l
      induction l with
      | nil => rfl
      | cons j js ihj =>
          rw [List.map_cons, List.filter_cons, List.filter_cons]
          cases hj : isSegmentDone cp t.id j with
          | true => rw [if_neg (by decide), if_neg (by decide), ihj]
          | false => rw [if_pos (by decide), if_pos (by decide), List.map_cons, ihj]

theorem length_filter_partition {α : Type} (p : α → Bool) (l : List α) :
    (l.filter p).length + (l.filter (fun a => ! p a)).length = l.length := by
  induction l with
  | nil => rfl
  | cons a rest ih =>
      rw [List.filter_cons, List.filter_cons]
      cases ha : p a with
      | true =>
          rw [if_pos (by decide), if_neg (by decide)]
          simp only [List.length_cons]
          omega
      | false =>
          rw [if_neg (by decide), if_pos (by decide)]
          simp only [List.length_cons]
          omega

/-- C2: for a resumed run whose adopted checkpoint marks the pair set `R`
(`cpPairs`, with Go-map key uniqueness), where every marked pair belongs to
the selected tracks' segments and the selected (track, index) pairs are
distinct, the submission loop submits exactly the segments whose pair is not
in `R` — `totalSegments − |R|` tasks. -/
theorem resume_submits_total_minus_marked (cp : CompletedMap) (tracks : List TrackSegs)
    (hkeys : (cp.map Prod.fst).Nodup)
    (hall : (allSegPairs tracks).Nodup)
    (hsub : ∀ p ∈ cpPairs cp, p ∈ allSegPairs tracks) :
    submittedTasks cp tracks
        = (allSegPairs tracks).filter (fun p => ! decide (p ∈ cpPairs cp)) ∧
      (submittedTasks cp tracks).length
        = (allSegPairs tracks).length - (cpPairs cp).dedup.length := by
  have hpt : ∀ p : Str × Int, isSegmentDone cp p.1 p.2 = decide (p ∈ cpPairs cp) := by
    intro p
    by_cases hm : p ∈ cpPairs cp
    · rw [decide_eq_true hm]
      exact (isSegmentDone_iff_mem_cpPairs hkeys p.1 p.2).mpr hm
    · rw [decide_eq_false hm]
      cases hval : isSegmentDone cp p.1 p.2 with
      | false => rfl
      | true => exact absurd ((isSegmentDone_iff_mem_cpPairs hkeys p.1 p.2).mp hval) hm
  have heq : submittedTasks cp tracks
      = (allSegPairs tracks).filter (fun p => ! decide (p ∈ cpPairs cp)) := by
    rw [submittedTasks_eq_filter]
    exact List.filter_congr fun p _ => by rw [hpt p]
  refine ⟨heq, ?_⟩
  have hpart := length_filter_partition (fun p => decide (p ∈ cpPairs cp)) (allSegPairs tracks)
  have hin : ((allSegPairs tracks).filter (fun p => decide (p ∈ cpPairs cp))).length
      = (cpPairs cp).dedup.length := by
    have hnd1 : ((allSegPairs tracks).filter (fun p => decide (p ∈ cpPairs cp))).Nodup :=
      hall.filter _
    have hnd2 : (cpPairs cp).dedup.Nodup := (cpPairs cp).nodup_dedup
    have hfs : ((allSegPairs tracks).filter (fun p => decide (p ∈ cpPairs cp))).toFinset
        = (cpPairs cp).dedup.toFinset := by
      ext p
      simp only [List.mem_toFinset, List.mem_filter, decide_eq_true_eq, List.mem_dedup]
      exact ⟨fun h => h.2, fun h => ⟨hsub p h, h⟩⟩
    have h1 := List.toFinset_card_of_nodup hnd1
    have h2 := List.toFinset_card_of_nodup hnd2
    rw [← h1, ← h2, hfs]
  rw [heq]
  omega

/-- Witness for C2: track v1 with segments 0..4 and a checkpoint marking
{0,1,2} leads to exactly the two tasks for indices 3 and 4. -/
theorem resume_submits_total_minus_marked_witness :
    (([((str "v1"), [(0 : Int), 1, 2])].map Prod.fst).Nodup ∧
      (allSegPairs [⟨str "v1", [0, 1, 2, 3, 4]⟩]).Nodup ∧
      (∀ p ∈ cpPairs [((str "v1"), [(0 : Int), 1, 2])],
        p ∈ allSegPairs [⟨str "v1", [0, 1, 2, 3, 4]⟩])) ∧
    (submittedTasks [((str "v1"), [(0 : Int), 1, 2])] [⟨str "v1", [0, 1, 2, 3, 4]⟩]
        = (allSegPairs [⟨str "v1", [0, 1, 2, 3, 4]⟩]).filter
            (fun p => ! decide (p ∈ cpPairs [((str "v1"), [(0 : Int), 1, 2])])) ∧
      (submittedTasks [((str "v1"), [(0 : Int), 1, 2])] [⟨str "v1", [0, 1, 2, 3, 4]⟩]).length
        = (allSegPairs [⟨str "v1", [0, 1, 2, 3, 4]⟩]).length
            - (cpPairs [((str "v1"), [(0 : Int), 1, 2])]).dedup.length) :=
  ⟨⟨by decide, by decide, by decide⟩,
    resume_submits_total_minus_marked [((str "v1"), [(0 : Int), 1, 2])]
      [⟨str "v1", [0, 1, 2, 3, 4]⟩] (by decide) (by decide) (by decide)⟩

/-! ## Worker retry loop (worker_pool.go, lines 106-172)

`downloadSegment` tries `doRequest` (and, on success, the optional decrypt and
the spool write) up to `p.maxRetries = 5` times; before every attempt but the
first it sleeps `time.Duration(1<<uint(attempt-1)) * 500 * time.Millisecond`.
The model abstracts one whole try as `succeeds n` (any of fetch, decrypt, or
write failing makes the try fail and sets `lastErr`) and records the
observable events in order.  Cancellation is not modelled: these are the runs
in which the context is never cancelled. -/

inductive PoolEvent where
  | sleep (ms : Nat)
  | attempt (n : Nat)
  | progressSuccess
  | recordError
  | progressFailure
  deriving DecidableEq, Repr

/-- The retry loop: `attempt` is the 0-based try counter, `remaining` the
tries left.  When the tries run out the task is declared failed: the last
error is appended to the pool's error list and a failure progress event is
emitted. -/
def downloadSegmentGo (succeeds : Nat → Bool) : Nat → Nat → List PoolEvent × Bool
  | _, 0 => ([.recordError, .progressFailure], false)
  | attempt, remaining + 1 =>
      let pre : List PoolEvent :=
        if attempt > 0 then [.sleep (500 * 2 ^ (attempt - 1))] else []
      if succeeds attempt then (pre ++ [.attempt attempt, .progressSuccess], true)
      else
        let rest := downloadSegmentGo succeeds (attempt + 1) remaining
        (pre ++ [.attempt attempt] ++ rest.1, rest.2)

/-- `downloadSegment`: the loop starting at attempt 0 with
`maxRetries = 5` (set in `NewWorkerPool`). -/
def downloadSegment (succeeds : Nat → Bool) : List PoolEvent × Bool :=
  downloadSegmentGo succeeds 0 5

def isAttemptEvent : PoolEvent → Bool
  | .attempt _ => true
  | _ => false

/-- The back-off slept immediately before the `a`-th (1-based) attempt, if
any: scans for a sleep event directly followed by `.attempt (a-1)`. -/
def sleepBeforeAttempt : List PoolEvent → Nat → Option Nat
  | .sleep ms :: .attempt n :: rest, a =>
      if n + 1 = a then some ms else sleepBeforeAttempt (.attempt n :: rest) a
  | _ :: rest, a => sleepBeforeAttempt rest a
  | [], _ => none

theorem downloadSegmentGo_zero (succeeds : Nat → Bool) (a0 : Nat) :
    downloadSegmentGo succeeds a0 0 = ([.recordError, .progressFailure], false) := rfl

theorem downloadSegmentGo_succ_true (succeeds : Nat → Bool) (a0 m : Nat)
    (h : succeeds a0 = true) :
    downloadSegmentGo succeeds a0 (m + 1)
      = ((if a0 > 0 then [PoolEvent.sleep (500 * 2 ^ (a0 - 1))] else [])
          ++ [.attempt a0, .progressSuccess], true) := by
  simp [downloadSegmentGo, h]

theorem downloadSegmentGo_succ_false (succeeds : Nat → Bool) (a0 m : Nat)
    (h : succeeds a0 = false) :
    downloadSegmentGo succeeds a0 (m + 1)
      = ((if a0 > 0 then [PoolEvent.sleep (500 * 2 ^ (a0 - 1))] else [])
          ++ [.attempt a0] ++ (downloadSegmentGo succeeds (a0 + 1) m).1,
        (downloadSegmentGo succeeds (a0 + 1) m).2) := by
  simp [downloadSegmentGo, h]

theorem sleepBefore_nil (a : Nat) : sleepBeforeAttempt [] a = none := rfl

theorem sleepBefore_attempt_cons (n : Nat) (rest : List PoolEvent) (a : Nat) :
    sleepBeforeAttempt (.attempt n :: rest) a = sleepBeforeAttempt rest a := rfl

theorem sleepBefore_progressSuccess_cons (rest : List PoolEvent) (a : Nat) :
    sleepBeforeAttempt (.progressSuccess :: rest) a = sleepBeforeAttempt rest a := rfl

theorem sleepBefore_recordError_cons (rest : List PoolEvent) (a : Nat) :
    sleepBeforeAttempt (.recordError :: rest) a = sleepBeforeAttempt rest a := rfl

theorem sleepBefore_progressFailure_cons (rest : List PoolEvent) (a : Nat) :
    sleepBeforeAttempt (.progressFailure :: rest) a = sleepBeforeAttempt rest a := rfl

theorem sleepBefore_sleep_attempt (ms n : Nat) (rest : List PoolEvent) (a : Nat) :
    sleepBeforeAttempt (.sleep ms :: .attempt n :: rest) a
      = if n + 1 = a then some ms else sleepBeforeAttempt (.attempt n :: rest) a := rfl

theorem downloadSegmentGo_attempts (succeeds : Nat → Bool) :
    ∀ (r a0 : Nat),
      ((downloadSegmentGo succeeds a0 r).1.countP isAttemptEvent) ≤ r := by
  intro r
  induction r with
  | zero =>
      intro a0
      have h0 : (downloadSegmentGo succeeds a0 0).1.countP isAttemptEvent = 0 := rfl
      omega
  | succ m ih =>
      intro a0
      cases hs : succeeds a0 with
      | true =>
          rw [downloadSegmentGo_succ_true succeeds a0 m hs]
          cases a0 with
          | zero =>
              rw [if_neg (by omega)]
              have h1 : ((([] ++ [PoolEvent.attempt 0, .progressSuccess],
                  true) : List PoolEvent × Bool)).1.countP isAttemptEvent = 1 := rfl
              omega
          | succ k =>
              rw [if_pos (by omega)]
              have h1 : ((([PoolEvent.sleep (500 * 2 ^ (k + 1 - 1))]
                  ++ [PoolEvent.attempt (k + 1), .progressSuccess],
                  true) : List PoolEvent × Bool)).1.countP isAttemptEvent = 1 := rfl
              omega
      | false =>
          rw [downloadSegmentGo_succ_false succeeds a0 m hs]
          have hrec := ih (a0 + 1)
          rw [List.countP_append, List.countP_append]
          have h1 : ([PoolEvent.attempt a0] : List PoolEvent).countP isAttemptEvent = 1 := by
            simp [List.countP_cons, isAttemptEvent]
          have h2 : ((if a0 > 0 then [PoolEvent.sleep (500 * 2 ^ (a0 - 1))] else []) :
              List PoolEvent).countP isAttemptEvent = 0 := by
            cases a0 with
            | zero => rw [if_neg (by omega)]; rfl
            | succ k => rw [if_pos (by omega)]; rfl
          omega

theorem sleepBeforeAttempt_go (succeeds : Nat → Bool) :
    ∀ (r a0 a ms : Nat),
      sleepBeforeAttempt (downloadSegmentGo succeeds a0 r).1 a = some ms →
      2 ≤ a ∧ a ≤ a0 + r ∧ ms = 500 * 2 ^ (a - 2) := by
  intro r
  induction r with
  | zero =>
      intro a0 a ms h
      rw [downloadSegmentGo_zero, sleepBefore_recordError_cons,
        sleepBefore_progressFailure_cons, sleepBefore_nil] at h
      cases h
  | succ m ih =>
      intro a0 a ms h
      cases hs : succeeds a0 with
      | true =>
          rw [downloadSegmentGo_succ_true succeeds a0 m hs] at h
          cases a0 with
          | zero =>
              rw [if_neg (by omega)] at h
              simp only [List.nil_append] at h
              rw [sleepBefore_attempt_cons, sleepBefore_progressSuccess_cons,
                sleepBefore_nil] at h
              cases h
          | succ k =>
              rw [if_pos (by omega)] at h
              simp only [List.cons_append, List.nil_append] at h
              rw [sleepBefore_sleep_attempt] at h
              by_cases ha : k + 1 + 1 = a
              · rw [if_pos ha] at h
                refine ⟨by omega, by omega, ?_⟩
                rw [show a - 2 = k + 1 - 1 by omega]
                exact (Option.some.inj h).symm
              · rw [if_neg ha, sleepBefore_attempt_cons,
                  sleepBefore_progressSuccess_cons, sleepBefore_nil] at h
                cases h
      | false =>
          rw [downloadSegmentGo_succ_false succeeds a0 m hs] at h
          cases a0 with
          | zero =>
              rw [if_neg (by omega)] at h
              simp only [List.nil_append, List.cons_append] at h
              rw [sleepBefore_attempt_cons] at h
              have hr := ih 1 a ms h
              exact ⟨hr.1, by omega, hr.2.2⟩
          | succ k =>
              rw [if_pos (by omega)] at h
              simp only [List.cons_append, List.nil_append] at h
              rw [sleepBefore_sleep_attempt] at h
              by_cases ha : k + 1 + 1 = a
              · rw [if_pos ha] at h
                refine ⟨by omega, by omega, ?_⟩
                rw [show a - 2 = k + 1 - 1 by omega]
                exact (Option.some.inj h).symm
              · rw [if_neg ha, sleepBefore_attempt_cons] at h
                have hr := ih (k + 2) a ms h
                exact ⟨hr.1, by omega, hr.2.2⟩

theorem downloadSegmentGo_all_fail (succeeds : Nat → Bool) :
    ∀ (r a0 : Nat),
      (∀ n, a0 ≤ n → n < a0 + r → succeeds n = false) →
      (downloadSegmentGo succeeds a0 r).2 = false ∧
      ∃ pre, (downloadSegmentGo succeeds a0 r).1
          = pre ++ [.recordError, .progressFailure] := by
  intro r
  induction r with
  | zero =>
      intro a0 _
      exact ⟨rfl, [], rfl⟩
  | succ m ih =>
      intro a0 hfail
      have hs : succeeds a0 = false := hfail a0 (le_refl _) (by omega)
      rw [downloadSegmentGo_succ_false succeeds a0 m hs]
      obtain ⟨h2, pre, h1⟩ := ih (a0 + 1) (fun n hn1 hn2 => hfail n (by omega) (by omega))
      refine ⟨h2, (if a0 > 0 then [PoolEvent.sleep (500 * 2 ^ (a0 - 1))] else [])
        ++ [.attempt a0] ++ pre, ?_⟩
      rw [h1]
      simp

/-- C6 (amended): every task is attempted at most 5 times; the back-off slept
before attempt number `a` (1-based, `2 ≤ a ≤ 5`) is `500 ms × 2^(a−2)` — 500,
1000, 2000, 4000 ms before attempts 2, 3, 4, 5, not `500 × 2^(a−1)` as the
original claim states; and when all 5 tries fail the task is declared failed,
its last error recorded, and a failure progress event emitted. -/
theorem download_retry_behaviour (succeeds : Nat → Bool) :
    ((downloadSegment succeeds).1.countP isAttemptEvent ≤ 5) ∧
      (∀ a ms, sleepBeforeAttempt (downloadSegment succeeds).1 a = some ms →
        2 ≤ a ∧ a ≤ 5 ∧ ms = 500 * 2 ^ (a - 2)) ∧
      ((∀ n, n < 5 → succeeds n = false) →
        (downloadSegment succeeds).2 = false ∧
        ∃ pre, (downloadSegment succeeds).1 = pre ++ [.recordError, .progressFailure]) :=
  ⟨downloadSegmentGo_attempts succeeds 5 0,
   fun a ms h => sleepBeforeAttempt_go succeeds 5 0 a ms h,
   fun hf => downloadSegmentGo_all_fail succeeds 5 0 (fun n _ hn2 => hf n (by omega))⟩

/-- Witness for C6 on the run in which every try fails. -/
theorem download_retry_behaviour_witness :
    (sleepBeforeAttempt (downloadSegment (fun _ => false)).1 2 = some 500 ∧
      (2 ≤ 2 ∧ 2 ≤ 5 ∧ 500 = 500 * 2 ^ (2 - 2))) ∧
    ((∀ n, n < 5 → (fun _ => false) n = false) ∧
      ((downloadSegment (fun _ => false)).2 = false ∧
        ∃ pre, (downloadSegment (fun _ => false)).1
            = pre ++ [.recordError, .progressFailure])) :=
  ⟨⟨by decide, (download_retry_behaviour (fun _ => false)).2.1 2 500 (by decide)⟩,
   ⟨fun _ _ => rfl, (download_retry_behaviour (fun _ => false)).2.2 (fun _ _ => rfl)⟩⟩

/-- C6 counterexample: when the first try fails and the second succeeds, the
sleep before attempt 2 is 500 ms, not `500 × 2^(2−1) = 1000` ms. -/
theorem backoff_exponent_cx :
    sleepBeforeAttempt (downloadSegment (fun n => n == 1)).1 2 = some 500 ∧
      ¬ sleepBeforeAttempt (downloadSegment (fun n => n == 1)).1 2
          = some (500 * 2 ^ (2 - 1)) :=
  ⟨by decide, by decide⟩

/-! ## File-system traces of spooling and checkpointing (worker_pool.go,
lines 136-144; checkpoint.go, lines 53-68) -/

inductive FSOp where
  | write (path : Str) (data : List Nat)
  | rename (src dst : Str)
  deriving DecidableEq, Repr

/-- File-system operations of the worker success path with a spool directory
set: a single `os.WriteFile(segPath, data, 0644)` directly onto the final
per-segment path. -/
def spoolSegmentOps (tempDir trackID : Str) (index : Nat) (data : List Nat) : List FSOp :=
  [FSOp.write (workerSegPath tempDir trackID index) data]

/-- File-system operations of `Checkpoint.Save`: write `path+".tmp"`, then
rename it onto `path`. -/
def checkpointSaveOps (path : Str) (data : List Nat) : List FSOp :=
  [FSOp.write (path ++ str ".tmp") data, FSOp.rename (path ++ str ".tmp") path]

/-- The discipline the claim asserts for a final path: no write in the trace
targets the final path directly. -/
def noDirectWriteTo (ops : List FSOp) (finalPath : Str) : Prop :=
  ∀ op ∈ ops, ∀ p d, op = FSOp.write p d → p ≠ finalPath

/-- C7 counterexample: the worker's spool step writes the segment payload
directly onto its final path — there is no temporary name and no rename — so
the write-via-temp-then-rename discipline fails for segment files. -/
theorem segment_direct_write_cx :
    spoolSegmentOps (str "/tmp") (str "v1") 3 [1, 2, 3]
        = [FSOp.write (workerSegPath (str "/tmp") (str "v1") 3) [1, 2, 3]] ∧
      ¬ noDirectWriteTo (spoolSegmentOps (str "/tmp") (str "v1") 3 [1, 2, 3])
          (workerSegPath (str "/tmp") (str "v1") 3) := by
  refine ⟨rfl, fun h => ?_⟩
  exact h _ (List.mem_singleton_self _) _ _ rfl rfl

/-- C7 (amended): the checkpoint file is persisted atomically — its write goes
to the distinct temporary name `path+".tmp"` which is then renamed onto the
final path — but segment payloads are written in one direct `WriteFile` call
onto their final spool path, with no temporary name and no rename. -/
theorem spool_and_checkpoint_write_shape (tempDir trackID : Str) (index : Nat)
    (data cpData : List Nat) (path : Str) :
    spoolSegmentOps tempDir trackID index data
        = [FSOp.write (workerSegPath tempDir trackID index) data] ∧
      checkpointSaveOps path cpData
        = [FSOp.write (path ++ str ".tmp") cpData,
           FSOp.rename (path ++ str ".tmp") path] ∧
      noDirectWriteTo [FSOp.write (path ++ str ".tmp") cpData] path := by
  refine ⟨rfl, rfl, ?_⟩
  intro op hop p d hw hp
  rw [List.mem_singleton] at hop
  subst hop
  cases hw
  have hl := congrArg List.length hp
  rw [List.length_append] at hl
  have h4 : (str ".tmp").length = 4 := by decide
  omega

/-! ## HLS whole-segment AES-128-CBC decryption (HLS decryptor: Decrypt and
pkcs7Unpad)

The per-block AES decryption performed by `cipher.NewCBCDecrypter` is
abstracted as a parameter `blockDec` on 16-byte blocks; every theorem is
universally quantified over it, assuming only that it maps 16-byte blocks to
16-byte blocks. -/

/-- Pointwise XOR of byte lists (CBC: plaintext block = blockDec(cipher
block) XOR previous cipher block). -/
def xorBytes (a b : List Nat) : List Nat := List.zipWith (fun x y => x ^^^ y) a b

/-- CBC decryption over whole 16-byte blocks, as `CryptBlocks` performs it:
walk the ciphertext block by block, XORing each decrypted block with the
previous ciphertext block (the IV for the first). -/
def cbcDecrypt (blockDec : List Nat → List Nat) (iv data : List Nat) : List Nat :=
  if h : data = [] then []
  else
    xorBytes (blockDec (data.take 16)) iv ++ cbcDecrypt blockDec (data.take 16) (data.drop 16)
  termination_by data.length
  decreasing_by
    simp only [List.length_drop]
    have hp : 0 < data.length := List.length_pos.mpr h
    omega

/-- `pkcs7Unpad`: let `p` be the last byte; if `p > len(data)` or
`p > aes.BlockSize = 16`, or any of the last `p` bytes differs from `p`, the
data is returned unchanged; otherwise the last `p` bytes are removed.  (The
Go verification loop checks `data[len-1-i] == byte(padLen)` for `i < padLen`,
i.e. exactly the last `p` bytes.) -/
def pkcs7Unpad (data : List Nat) : List Nat :=
  match data.getLast? with
  | none => data
  | some p =>
      if p > data.length ∨ p > 16 then data
      else if (data.drop (data.length - p)).all (fun b => b = p) then
        data.take (data.length - p)
      else data

/-- The CBC plaintext `Decrypt` computes before padding removal, including its
IV defaulting: an IV of any length other than 16 is replaced by the zero IV. -/
def cbcPlain (blockDec : List Nat → List Nat) (iv data : List Nat) : List Nat :=
  cbcDecrypt blockDec (if iv.length ≠ 16 then List.replicate 16 0 else iv) data

/-- `HLSDecryptor.Decrypt`: a non-16-byte key is rejected; the ciphertext
length must be a multiple of the block size; otherwise the CBC plaintext is
returned with PKCS#7 padding stripped. -/
def hlsDecrypt (blockDec : List Nat → List Nat) (key iv data : List Nat) :
    Option (List Nat) :=
  if key.length ≠ 16 then none
  else if data.length % 16 ≠ 0 then none
  else some (pkcs7Unpad (cbcPlain blockDec iv data))

theorem xorBytes_length (a b : List Nat) :
    (xorBytes a b).length = min a.length b.length := by
  simp [xorBytes]

theorem cbcDecrypt_length_aux (blockDec : List Nat → List Nat)
    (hbd : ∀ b : List Nat, b.length = 16 → (blockDec b).length = 16) :
    ∀ (n : Nat) (data iv : List Nat), data.length ≤ n → iv.length = 16 →
      data.length % 16 = 0 → (cbcDecrypt blockDec iv data).length = data.length := by
  intro n
  induction n with
  | zero =>
      intro data iv hlen _ _
      have hd : data = [] := List.length_eq_zero.mp (by omega)
      subst hd
      rw [cbcDecrypt]
      rfl
  | succ m ih =>
      intro data iv hlen hiv hmod
      by_cases hd : data = []
      · subst hd
        rw [cbcDecrypt]
        rfl
      · rw [cbcDecrypt, dif_neg hd]
        have hpos : 0 < data.length := List.length_pos.mpr hd
        have h16 : 16 ≤ data.length := by omega
        have htake : (data.take 16).length = 16 := by
          rw [List.length_take]
          omega
        have hdrop : (data.drop 16).length = data.length - 16 := by
          rw [List.length_drop]
        have hxor : (xorBytes (blockDec (data.take 16)) iv).length = 16 := by
          rw [xorBytes_length, hbd _ htake, hiv]
          exact Nat.min_self 16
        have hrec := ih (data.drop 16) (data.take 16) (by omega) htake
          (by rw [hdrop]; omega)
        rw [List.length_append, hxor, hrec, hdrop]
        omega

theorem cbcDecrypt_length (blockDec : List Nat → List Nat)
    (hbd : ∀ b : List Nat, b.length = 16 → (blockDec b).length = 16)
    (data iv : List Nat) (hiv : iv.length = 16) (hmod : data.length % 16 = 0) :
    (cbcDecrypt blockDec iv data).length = data.length :=
  cbcDecrypt_length_aux blockDec hbd data.length data iv (le_refl _) hiv hmod

theorem pkcs7Unpad_getLast_none {data : List Nat} (h : data.getLast? = none) :
    pkcs7Unpad data = data := by
  unfold pkcs7Unpad
  rw [h]

theorem pkcs7Unpad_getLast_some {data : List Nat} {p : Nat}
    (h : data.getLast? = some p) :
    pkcs7Unpad data
      = if p > data.length ∨ p > 16 then data
        else if (data.drop (data.length - p)).all (fun b => b = p) then
          data.take (data.length - p)
        else data := by
  unfold pkcs7Unpad
  rw [h]

theorem pkcs7Unpad_length_bounds (data : List Nat) :
    (pkcs7Unpad data).length ≤ data.length ∧
      data.length - (pkcs7Unpad data).length ≤ 16 := by
  cases hl : data.getLast? with
  | none =>
      rw [pkcs7Unpad_getLast_none hl]
      omega
  | some p =>
      rw [pkcs7Unpad_getLast_some hl]
      by_cases hc : p > data.length ∨ p > 16
      · rw [if_pos hc]
        omega
      · rw [if_neg hc]
        split
        · rw [List.length_take]
          omega
        · omega

/-- C4: for every ciphertext whose length is a multiple of 16 (and a 16-byte
key), `Decrypt` succeeds and returns the CBC plaintext with PKCS#7 padding
stripped by the claimed rule: if the last byte `p` exceeds 16 or the last `p`
bytes are not all `p`, the plaintext is returned unchanged, otherwise the
last `p` bytes are removed; the output is never longer than the ciphertext
and shorter by at most 16 bytes. -/
theorem decrypt_strips_pkcs7 (blockDec : List Nat → List Nat)
    (hbd : ∀ b : List Nat, b.length = 16 → (blockDec b).length = 16)
    (key iv data : List Nat) (hkey : key.length = 16)
    (hmod : data.length % 16 = 0) :
    ∃ out, hlsDecrypt blockDec key iv data = some out ∧
      out = pkcs7Unpad (cbcPlain blockDec iv data) ∧
      (∀ p, (cbcPlain blockDec iv data).getLast? = some p →
        ((p > 16 ∨ ¬ (((cbcPlain blockDec iv data).drop
              ((cbcPlain blockDec iv data).length - p)).all (fun b => b = p))) →
          out = cbcPlain blockDec iv data) ∧
        (p ≤ 16 →
          (((cbcPlain blockDec iv data).drop
              ((cbcPlain blockDec iv data).length - p)).all (fun b => b = p)) →
          out = (cbcPlain blockDec iv data).take
            ((cbcPlain blockDec iv data).length - p))) ∧
      out.length ≤ data.length ∧ data.length - out.length ≤ 16 := by
  have hiv2 : (if iv.length ≠ 16 then List.replicate 16 0 else iv).length = 16 := by
    split
    · simp
    · omega
  have hplen : (cbcPlain blockDec iv data).length = data.length :=
    cbcDecrypt_length blockDec hbd data _ hiv2 hmod
  refine ⟨pkcs7Unpad (cbcPlain blockDec iv data), ?_, rfl, ?_, ?_, ?_⟩
  · unfold hlsDecrypt
    rw [if_neg (by omega), if_neg (by omega)]
  · intro p hp
    have hne : cbcPlain blockDec iv data ≠ [] := by
      intro hnil
      rw [hnil] at hp
      cases hp
    have hlen16 : 16 ≤ (cbcPlain blockDec iv data).length := by
      have hpos : 0 < (cbcPlain blockDec iv data).length := List.length_pos.mpr hne
      omega
    constructor
    · intro hcase
      rw [pkcs7Unpad_getLast_some hp]
      rcases hcase with hgt | hall
      · rw [if_pos (Or.inr hgt)]
      · by_cases hc : p > (cbcPlain blockDec iv data).length ∨ p > 16
        · rw [if_pos hc]
        · rw [if_neg hc, if_neg (by simpa using hall)]
    · intro hle hall
      rw [pkcs7Unpad_getLast_some hp, if_neg (by omega), if_pos (by simpa using hall)]
  · have hb := pkcs7Unpad_length_bounds (cbcPlain blockDec iv data)
    omega
  · have hb := pkcs7Unpad_length_bounds (cbcPlain blockDec iv data)
    omega

/-- Witness for C4: identity block decryption, a zero key, an empty IV and the
16-byte ciphertext of all 2s (whose CBC plaintext strips two padding bytes). -/
theorem decrypt_strips_pkcs7_witness :
    ((List.replicate 16 0 : List Nat).length = 16 ∧
      (List.replicate 16 2 : List Nat).length % 16 = 0) ∧
    (∃ out, hlsDecrypt (fun b => b) (List.replicate 16 0) [] (List.replicate 16 2)
        = some out ∧
      out = pkcs7Unpad (cbcPlain (fun b => b) [] (List.replicate 16 2)) ∧
      (∀ p, (cbcPlain (fun b => b) [] (List.replicate 16 2)).getLast? = some p →
        ((p > 16 ∨ ¬ (((cbcPlain (fun b => b) [] (List.replicate 16 2)).drop
              ((cbcPlain (fun b => b) [] (List.replicate 16 2)).length - p)).all
                (fun b => b = p))) →
          out = cbcPlain (fun b => b) [] (List.replicate 16 2)) ∧
        (p ≤ 16 →
          (((cbcPlain (fun b => b) [] (List.replicate 16 2)).drop
              ((cbcPlain (fun b => b) [] (List.replicate 16 2)).length - p)).all
                (fun b => b = p)) →
          out = (cbcPlain (fun b => b) [] (List.replicate 16 2)).take
            ((cbcPlain (fun b => b) [] (List.replicate 16 2)).length - p))) ∧
      out.length ≤ (List.replicate 16 2 : List Nat).length ∧
        (List.replicate 16 2 : List Nat).length - out.length ≤ 16) :=
  ⟨⟨by decide, by decide⟩,
    decrypt_strips_pkcs7 (fun b => b) (fun _ h => h) (List.replicate 16 0) []
      (List.replicate 16 2) (by decide) (by decide)⟩

/-! ## CENC sample decryption: the CTR IV counter (decryptor.go,
`decryptSample` lines 212-255; helpers.go, `incrementIV` lines 232-241)

The CTR keystream XOR itself (`cipher.NewCTR` + `XORKeyStream`) is abstracted
as a length-preserving parameter `ctr`; the claims concern which bytes are
decrypted and how the IV counter advances. -/

/-- One big-endian `+1` with carry, expressed on the reversed byte list: the
Go inner loop `for j := len(iv)-1; j >= 0; j-- { iv[j]++; if iv[j] != 0
{ break } }`. -/
def bumpLE : List Nat → List Nat
  | [] => []
  | b :: rest => if (b + 1) % 256 = 0 then 0 :: bumpLE rest else (b + 1) % 256 :: rest

/-- One `+1` pass of `incrementIV` on the big-endian byte list. -/
def incIV1 (iv : List Nat) : List Nat := (bumpLE iv.reverse).reverse

/-- `incrementIV(iv, blocks)`: `blocks` single big-endian increments. -/
def incrementIV (iv : List Nat) : Nat → List Nat
  | 0 => iv
  | n + 1 => incrementIV (incIV1 iv) n

/-- Big-endian integer value of a byte list. -/
def beVal (iv : List Nat) : Nat := iv.foldl (fun acc b => acc * 256 + b) 0

/-- Little-endian integer value (helper for the carry proof). -/
def leVal (l : List Nat) : Nat := l.foldr (fun b acc => b + 256 * acc) 0

/-- All entries are byte values. -/
def validBytes (l : List Nat) : Prop := ∀ b ∈ l, b < 256

theorem beVal_eq_leVal_reverse (l : List Nat) : beVal l = leVal l.reverse := by
  unfold beVal leVal
  rw [List.foldr_reverse]
  refine congrFun (congrFun (congrArg _ (funext fun x => funext fun y => ?_)) 0) l
  ring

theorem leVal_lt {l : List Nat} (h : validBytes l) : leVal l < 256 ^ l.length := by
  induction l with
  | nil => simp [leVal]
  | cons b rest ih =>
      have hb : b < 256 := h b (List.mem_cons_self _ _)
      have hr : leVal rest < 256 ^ rest.length :=
        ih (fun x hx => h x (List.mem_cons_of_mem _ hx))
      simp only [leVal, List.foldr_cons] at *
      calc b + 256 * rest.foldr (fun b acc => b + 256 * acc) 0
          ≤ 255 + 256 * (256 ^ rest.length - 1) := by omega
        _ < 256 ^ (rest.length + 1) := by
            have hpow : 1 ≤ 256 ^ rest.length := Nat.one_le_pow _ _ (by omega)
            rw [pow_succ]
            omega

theorem bumpLE_length (l : List Nat) : (bumpLE l).length = l.length := by
  induction l with
  | nil => rfl
  | cons b rest ih =>
      unfold bumpLE
      split
      · simp [ih]
      · simp

theorem bumpLE_valid {l : List Nat} (h : validBytes l) : validBytes (bumpLE l) := by
  induction l with
  | nil => exact h
  | cons b rest ih =>
      unfold bumpLE
      have hrest : validBytes rest := fun x hx => h x (List.mem_cons_of_mem _ hx)
      split
      · intro x hx
        rcases List.mem_cons.mp hx with rfl | hx2
        · omega
        · exact ih hrest x hx2
      · intro x hx
        rcases List.mem_cons.mp hx with rfl | hx2
        · exact Nat.mod_lt _ (by omega)
        · exact hrest x hx2

theorem bumpLE_leVal {l : List Nat} (h : validBytes l) :
    leVal (bumpLE l) = (leVal l + 1) % 256 ^ l.length := by
  induction l with
  | nil => rfl
  | cons b rest ih =>
      have hb : b < 256 := h b (List.mem_cons_self _ _)
      have hrest : validBytes rest := fun x hx => h x (List.mem_cons_of_mem _ hx)
      have hr := ih hrest
      have hrlt := leVal_lt hrest
      unfold bumpLE
      by_cases hc : (b + 1) % 256 = 0
      · rw [if_pos hc]
        have hb255 : b = 255 := by omega
        subst hb255
        simp only [leVal, List.foldr_cons, List.length_cons] at *
        rw [hr]
        rw [pow_succ, show (256 : Nat) ^ rest.length * 256
            = 256 * 256 ^ rest.length by ring]
        rw [show (255 : Nat) + 256 * rest.foldr (fun b acc => b + 256 * acc) 0 + 1
            = 256 * (rest.foldr (fun b acc => b + 256 * acc) 0 + 1) by ring]
        rw [Nat.mul_mod_mul_left]
        omega
      · rw [if_neg hc]
        have hb1 : (b + 1) % 256 = b + 1 := by omega
        rw [hb1]
        simp only [leVal, List.foldr_cons, List.length_cons] at *
        rw [Nat.mod_eq_of_lt]
        · omega
        · have hpow : 1 ≤ 256 ^ rest.length := Nat.one_le_pow _ _ (by omega)
          rw [pow_succ]
          calc b + 256 * rest.foldr (fun b acc => b + 256 * acc) 0 + 1
              ≤ 255 + 256 * (256 ^ rest.length - 1) := by omega
            _ < 256 ^ rest.length * 256 := by omega

theorem incIV1_length (iv : List Nat) : (incIV1 iv).length = iv.length := by
  simp [incIV1, bumpLE_length]

theorem incIV1_valid {iv : List Nat} (h : validBytes iv) : validBytes (incIV1 iv) := by
  intro b hb
  simp only [incIV1, List.mem_reverse] at hb
  exact bumpLE_valid (fun x hx => h x (List.mem_reverse.mp hx)) b hb

theorem incIV1_beVal {iv : List Nat} (h : validBytes iv) :
    beVal (incIV1 iv) = (beVal iv + 1) % 256 ^ iv.length := by
  rw [beVal_eq_leVal_reverse, incIV1, List.reverse_reverse,
    bumpLE_leVal (fun x hx => h x (List.mem_reverse.mp hx)),
    List.length_reverse, ← beVal_eq_leVal_reverse]

theorem incrementIV_length (n : Nat) :
    ∀ iv : List Nat, (incrementIV iv n).length = iv.length := by
  induction n with
  | zero => intro iv; rfl
  | succ m ih =>
      intro iv
      unfold incrementIV
      rw [ih (incIV1 iv), incIV1_length]

theorem incrementIV_valid (n : Nat) :
    ∀ iv : List Nat, validBytes iv → validBytes (incrementIV iv n) := by
  induction n with
  | zero => intro iv h; exact h
  | succ m ih =>
      intro iv h
      unfold incrementIV
      exact ih (incIV1 iv) (incIV1_valid h)

theorem incrementIV_beVal (n : Nat) :
    ∀ iv : List Nat, validBytes iv →
      beVal (incrementIV iv n) = (beVal iv + n) % 256 ^ iv.length := by
  induction n with
  | zero =>
      intro iv h
      have hlt : leVal iv.reverse < 256 ^ iv.reverse.length :=
        leVal_lt (fun x hx => h x (List.mem_reverse.mp hx))
      rw [List.length_reverse] at hlt
      rw [← beVal_eq_leVal_reverse] at hlt
      show beVal iv = (beVal iv + 0) % 256 ^ iv.length
      rw [Nat.add_zero, Nat.mod_eq_of_lt hlt]
  | succ m ih =>
      intro iv h
      unfold incrementIV
      rw [ih (incIV1 iv) (incIV1_valid h), incIV1_beVal h, incIV1_length,
        Nat.mod_add_mod, show beVal iv + 1 + m = beVal iv + (m + 1) by omega]

theorem incrementIV_add (a : Nat) :
    ∀ (b : Nat) (iv : List Nat),
      incrementIV iv (a + b) = incrementIV (incrementIV iv a) b := by
  induction a with
  | zero =>
      intro b iv
      rw [Nat.zero_add]
      rfl
  | succ m ih =>
      intro b iv
      have h1 : m + 1 + b = (m + b) + 1 := by omega
      show incrementIV iv (m + 1 + b) = incrementIV (incrementIV (incIV1 iv) m) b
      rw [h1]
      show incrementIV (incIV1 iv) (m + b) = incrementIV (incrementIV (incIV1 iv) m) b
      exact ih b (incIV1 iv)

/-- A `senc` sub-sample pair: 16-bit clear byte count, 32-bit protected byte
count. -/
structure SubsampleEntry where
  clearBytes : Nat
  protectedBytes : Nat
  deriving DecidableEq, Repr

/-- The sub-sample loop of `decryptSample`: skip the clear bytes, decrypt the
protected bytes in place with CTR under the current IV, then advance the IV
by `(protectedBytes + 15) / 16` blocks (the Go
`blocks := (int(sub.protectedBytes) + 15) / 16; incrementIV(ivCopy, blocks)`),
breaking out when the sub-sample would overrun the sample. -/
def decryptSubsamples (ctr : List Nat → List Nat → List Nat) :
    List SubsampleEntry → List Nat → List Nat → Nat → List Nat × List Nat
  | [], sample, iv, _ => (sample, iv)
  | sub :: rest, sample, iv, offset =>
      let off1 := offset + sub.clearBytes
      if off1 + sub.protectedBytes > sample.length then (sample, iv)
      else
        let region := (sample.drop off1).take sub.protectedBytes
        let sample2 := sample.take off1 ++ ctr iv region
          ++ sample.drop (off1 + sub.protectedBytes)
        decryptSubsamples ctr rest sample2
          (incrementIV iv ((sub.protectedBytes + 15) / 16))
          (off1 + sub.protectedBytes)

/-- `decryptSample` proper: empty samples and absent IVs pass through; the IV
is copied into a fresh 16-byte buffer (`make([]byte, 16); copy(ivCopy, iv)`,
which right-pads an 8-byte IV with zeros); with no sub-sample partition the
whole sample is CTR-decrypted, otherwise the sub-sample loop runs. -/
def decryptSample (ctr : List Nat → List Nat → List Nat)
    (sample iv : List Nat) (subs : List SubsampleEntry) : List Nat × List Nat :=
  if sample = [] ∨ iv = [] then (sample, iv)
  else
    let ivCopy := iv.take 16 ++ List.replicate (16 - iv.length) 0
    if subs = [] then (ctr ivCopy sample, ivCopy)
    else decryptSubsamples ctr subs sample ivCopy 0

/-- The sub-sample partition fits inside the sample (no break is taken). -/
def subsFit (len : Nat) : Nat → List SubsampleEntry → Prop
  | _, [] => True
  | offset, sub :: rest =>
      offset + sub.clearBytes + sub.protectedBytes ≤ len ∧
      subsFit len (offset + sub.clearBytes + sub.protectedBytes) rest

theorem decryptSubsamples_iv (ctr : List Nat → List Nat → List Nat)
    (hctr : ∀ iv d, (ctr iv d).length = d.length) :
    ∀ (subs : List SubsampleEntry) (sample iv : List Nat) (offset : Nat),
      subsFit sample.length offset subs →
      (decryptSubsamples ctr subs sample iv offset).2
        = incrementIV iv ((subs.map (fun s => (s.protectedBytes + 15) / 16)).sum) := by
  intro subs
  induction subs with
  | nil => intro sample iv offset _; rfl
  | cons sub rest ih =>
      intro sample iv offset hfit
      obtain ⟨hhead, htail⟩ := hfit
      simp only [decryptSubsamples]
      rw [if_neg (by omega)]
      have hlen2 : (sample.take (offset + sub.clearBytes) ++ ctr iv
          ((sample.drop (offset + sub.clearBytes)).take sub.protectedBytes)
          ++ sample.drop (offset + sub.clearBytes + sub.protectedBytes)).length
          = sample.length := by
        rw [List.length_append, List.length_append, hctr, List.length_take,
          List.length_take, List.length_drop, List.length_drop]
        omega
      rw [ih _ _ _ (by rw [hlen2]; exact htail)]
      rw [List.map_cons, List.sum_cons, incrementIV_add]

/-- C5: the IV counter arithmetic of sample-level CTR decryption.  First, for
every 16-byte IV and every block count `n`, `incrementIV` performs big-endian
addition with carries through all 16 bytes: the resulting bytes encode
`beVal iv + n` modulo `2^128`.  Second, the sub-sample loop advances the IV by
`⌈protectedBytes/16⌉ = (protectedBytes + 15)/16` blocks per processed
sub-sample, so over a partition that fits the sample the final counter is the
start value plus the sum of the per-sub-sample block counts. -/
theorem ctr_iv_counter_bigendian :
    (∀ (iv : List Nat) (n : Nat), iv.length = 16 → validBytes iv →
      beVal (incrementIV iv n) = (beVal iv + n) % 2 ^ 128) ∧
    (∀ (ctr : List Nat → List Nat → List Nat),
      (∀ iv d, (ctr iv d).length = d.length) →
      ∀ (subs : List SubsampleEntry) (sample iv : List Nat) (offset : Nat),
        subsFit sample.length offset subs →
        (decryptSubsamples ctr subs sample iv offset).2
          = incrementIV iv ((subs.map (fun s => (s.protectedBytes + 15) / 16)).sum)) := by
  constructor
  · intro iv n hlen hval
    rw [incrementIV_beVal n iv hval, hlen]
    norm_num
  · intro ctr hctr subs sample iv offset hfit
    exact decryptSubsamples_iv ctr hctr subs sample iv offset hfit

/-- Witness for C5: incrementing the all-255 IV by 1 wraps to zero, and a
single sub-sample of 100 clear plus 1024 protected bytes advances the IV by
64 blocks. -/
theorem ctr_iv_counter_bigendian_witness :
    ((List.replicate 16 255 : List Nat).length = 16 ∧
      validBytes (List.replicate 16 255) ∧
      beVal (incrementIV (List.replicate 16 255) 1)
        = (beVal (List.replicate 16 255) + 1) % 2 ^ 128) ∧
    ((∀ iv d, ((fun (_ : List Nat) (d : List Nat) => d) iv d).length = d.length) ∧
      subsFit (List.replicate 2000 (0 : Nat)).length 0 [⟨100, 1024⟩] ∧
      (decryptSubsamples (fun _ d => d) [⟨100, 1024⟩]
          (List.replicate 2000 0) (List.replicate 16 0) 0).2
        = incrementIV (List.replicate 16 0)
            (([⟨100, 1024⟩] : List SubsampleEntry).map
              (fun s => (s.protectedBytes + 15) / 16)).sum) :=
  have hval : validBytes (List.replicate 16 (255 : Nat)) := fun b hb => by
    rw [List.eq_of_mem_replicate hb]
    omega
  have hfit : subsFit (List.replicate 2000 (0 : Nat)).length 0 [⟨100, 1024⟩] :=
    ⟨by rw [List.length_replicate]; norm_num, trivial⟩
  ⟨⟨by simp, hval,
      ctr_iv_counter_bigendian.1 (List.replicate 16 255) 1 (by simp) hval⟩,
    ⟨fun _ _ => rfl, hfit,
      ctr_iv_counter_bigendian.2 (fun _ d => d) (fun _ _ => rfl)
        [⟨100, 1024⟩] (List.replicate 2000 0) (List.replicate 16 0) 0 hfit⟩⟩

end Veld
